import Mathlib

/-!
# Verification of the `ai-healthchain` permissioned-ledger core

Shallow embedding of the repository's ledger core:

* `server/src/features/data-integrity/MerkleTree.js` — binary Merkle tree
  with self-duplication of the last node on odd levels, proof generation
  and (static) proof/batch verification;
* `server/src/features/consensus/ConsensusEngine.js` — block proposal,
  proposal validation, voting, quorum check, chain synchronisation and
  whole-chain re-validation;
* the `Blockchain` / `NodeManager` core classes are not among the provided
  sources (only their callers are), so the handful of methods the engine
  uses from them (`isValidTransaction`, `calculateMerkleRoot`,
  `calculateBlockHash`, `getChainLength`, `getLatestBlock`, `getNodeId`,
  `getNetworkNodes`) are modelled from the specification and marked as such.

The SHA-256 function itself is kept abstract: every operation is
parametrised by `h : String → String`, the hash of the canonical string
encoding of a datum (`MerkleTree.hash` applies SHA-256 to the string itself
or to `JSON.stringify` of an object; we work directly with the encoded
strings).  None of the verified properties depend on the internals of
SHA-256, only on `h` being a function.

Where JavaScript's dynamic typing is load-bearing (the always-true
structure check in `validateBlockProposal`, the totality of `verifyProof`
on malformed proof objects) a small model `JVal` of JavaScript values with
its truthiness, property access, string coercion and `for...of` iteration
rules is used.
-/

namespace HealthChain

/-! ## A small model of JavaScript values

Only the constructs the embedded code exercises are modelled: `undefined`,
`null`, booleans, (integer) numbers, strings, arrays and plain objects.
Iterables other than arrays and strings (Map, Set, generators, typed
arrays) are not modelled; `NaN` and non-integer numbers do not arise in
the modelled paths. -/

inductive JVal where
  | undef : JVal
  | jnull : JVal
  | jbool : Bool → JVal
  | jnum : Int → JVal
  | jstr : String → JVal
  | jarr : List JVal → JVal
  | jobj : List (String × JVal) → JVal

/-- JavaScript truthiness: `undefined`, `null`, `false`, `0` and `""` are
falsy; every array and object is truthy. -/
def jTruthy : JVal → Bool
  | .undef => false
  | .jnull => false
  | .jbool b => b
  | .jnum n => n != 0
  | .jstr s => s != ""
  | .jarr _ => true
  | .jobj _ => true

/-- `v === undefined` (strict equality against `undefined`). -/
def jIsUndef : JVal → Bool
  | .undef => true
  | _ => false

/-- `v === null || v === undefined` — property access on such a receiver
throws `TypeError`. -/
def jNullish : JVal → Bool
  | .undef => true
  | .jnull => true
  | _ => false

/-- Property access `v[k]`: a `TypeError` on `null`/`undefined`, the
field's value (or `undefined`) on an object, `undefined` on every other
value (primitives and arrays carry none of the fields the embedded code
reads). -/
def jGetField : JVal → String → Except Unit JVal
  | .undef, _ => .error ()
  | .jnull, _ => .error ()
  | .jobj fields, k => .ok (((fields.find? (fun p => p.1 == k)).map Prod.snd).getD .undef)
  | _, _ => .ok .undef

mutual

/-- JavaScript `ToString` as used by string concatenation with `+`. -/
def jToStr : JVal → String
  | .undef => "undefined"
  | .jnull => "null"
  | .jbool b => if b then "true" else "false"
  | .jnum n => toString n
  | .jstr s => s
  | .jarr l => String.intercalate "," (jToStrArr l)
  | .jobj _ => "[object Object]"

/-- `Array.prototype.toString` stringifies elements, rendering `null` and
`undefined` elements as the empty string. -/
def jToStrArr : List JVal → List String
  | [] => []
  | v :: rest =>
      (match v with
       | .undef => ""
       | .jnull => ""
       | w => jToStr w) :: jToStrArr rest

end

/-- `for...of` iteration: arrays yield their elements, strings yield their
characters (as one-character strings); every other value is not iterable
and iterating it throws a `TypeError`. -/
def jIterate : JVal → Except Unit (List JVal)
  | .jarr l => .ok l
  | .jstr s => .ok (s.toList.map (fun c => .jstr (String.singleton c)))
  | _ => .error ()

/-- Strict equality of an arbitrary value against a string value. -/
def jEqStr : JVal → String → Bool
  | .jstr t, s => t = s
  | _, _ => false

/-! ## MerkleTree (`server/src/features/data-integrity/MerkleTree.js`)

Records are identified with their canonical string encoding (the
`dataString` that `MerkleTree.hash` feeds to SHA-256); `h` is the hash. -/

/-- One step of a proof path: `{hash, position}` with `position` one of
the strings `'left'` / `'right'`. -/
structure PathEntry where
  hash : String
  position : String
  deriving DecidableEq, Repr

/-- A Merkle proof `{leaf, path, root}`; `root` mirrors `this.root`, which
is `null` before the tree is built. -/
structure Proof where
  leaf : String
  path : List PathEntry
  root : Option String
  deriving DecidableEq, Repr

/-- The `MerkleTree` instance state: `leaves`, `root` (`null` until built)
and the bottom-up `levels` used for proof generation. -/
structure MerkleTree where
  leaves : List String
  root : Option String
  levels : List (List String)
  deriving DecidableEq, Repr

/-- One pass of the `while` loop body in `buildTree`: pair adjacent nodes
(`hash(left + right)`), duplicating the last node of an odd level
(`hash(last + last)`). -/
def buildLevel (h : String → String) : List String → List String
  | [] => []
  | [a] => [h (a ++ a)]
  | a :: b :: rest => h (a ++ b) :: buildLevel h rest

/-- Fuel-indexed form of the `while (currentLevel.length > 1)` loop of
`buildTree` (structural recursion so that closed trees evaluate inside the
kernel); the fuel is immaterial as long as it dominates the level length
(`growLevelsAux_congr`). -/
def growLevelsAux (h : String → String) : Nat → List String → List (List String)
  | 0, _ => []
  | fuel + 1, cur =>
      if cur.length > 1 then
        buildLevel h cur :: growLevelsAux h fuel (buildLevel h cur)
      else []

/-- The levels the `while (currentLevel.length > 1)` loop pushes above a
given level (the given level itself excluded). -/
def growLevels (h : String → String) (cur : List String) : List (List String) :=
  growLevelsAux h cur.length cur

/-- The last level of a level stack (where `buildTree` reads the root). -/
def lastLevel (levels : List (List String)) : List String :=
  levels.getLastD []

/-- `buildTree(data)`: on empty input sets `root = hash('')`; otherwise
hashes the leaves and builds the level stack bottom-up, the root being the
single node of the last level. -/
def buildTree (h : String → String) (data : List String) : MerkleTree :=
  if data = [] then
    { leaves := [], root := some (h ""), levels := [[h ""]] }
  else
    let leaves := data.map h
    let levels := leaves :: growLevels h leaves
    { leaves, root := some ((lastLevel levels).getD 0 ""), levels }

/-- The constructor `new MerkleTree(data)`: builds only when
`data.length > 0`; otherwise `leaves = []`, `root = null`, `levels = []`. -/
def mkMerkleTree (h : String → String) (data : List String) : MerkleTree :=
  if data.length > 0 then buildTree h data
  else { leaves := [], root := none, levels := [] }

/-- `getRoot()`: throws `'Tree has not been built'` when `this.root` is
falsy (`null`, or the empty string). -/
def getRoot (t : MerkleTree) : Except String String :=
  match t.root with
  | none => .error "Tree has not been built"
  | some r => if r = "" then .error "Tree has not been built" else .ok r

/-- The proof-path loop of `getProof`: one entry per level below the top,
halving the index at each step; the sibling of the last unpaired node of a
level is the node itself. -/
def getProofPath : List (List String) → Nat → List PathEntry
  | [], _ => []
  | [_], _ => []
  | cur :: rest, idx =>
      let isLeft := idx % 2 = 0
      let siblingIndex := if isLeft then idx + 1 else idx - 1
      let entry : PathEntry :=
        if siblingIndex < cur.length then
          { hash := cur.getD siblingIndex "", position := if isLeft then "right" else "left" }
        else
          { hash := cur.getD idx "", position := if isLeft then "right" else "left" }
      entry :: getProofPath rest (idx / 2)

/-- `Array.prototype.findIndex` (as an `Option`-returning index search;
the source then compares against `-1`). -/
def findIndex (p : String → Bool) : List String → Option Nat
  | [] => none
  | a :: t => if p a then some 0 else (findIndex p t).map (· + 1)

/-- `getProof(data)`: throws on an empty tree and on a record whose hash
matches no leaf; otherwise pairs the leaf hash with the path from its
(first matching) leaf index and the stored root. -/
def getProof (h : String → String) (t : MerkleTree) (data : String) :
    Except String Proof :=
  if t.leaves.length = 0 then .error "Tree is empty"
  else
    let leafHash := h data
    match findIndex (fun x => x == leafHash) t.leaves with
    | none => .error "Data item not found in tree"
    | some leafIndex =>
        .ok { leaf := leafHash, path := getProofPath t.levels leafIndex, root := t.root }

/-- The path-folding loop of `verifyProof`: combine with the sibling on
the recorded side. -/
def foldPath (h : String → String) (path : List PathEntry) (current : String) : String :=
  match path with
  | [] => current
  | e :: rest =>
      if e.position = "left" then foldPath h rest (h (e.hash ++ current))
      else foldPath h rest (h (current ++ e.hash))

/-- `static verifyProof(data, proof, root = null)` on well-typed proof
objects.  The guard `!proof || !proof.path || !proof.root` reduces, for a
typed proof, to the root being `null` or `""` (an array — even an empty
one — is always truthy); `root || proof.root` picks the argument when it
is truthy. -/
def verifyProof (h : String → String) (data : String) (proof : Proof)
    (root : Option String) : Bool :=
  match proof.root with
  | none => false
  | some pr =>
      if pr = "" then false
      else
        let expectedRoot := match root with
          | some r => if r = "" then pr else r
          | none => pr
        let leafHash := h data
        if proof.leaf ≠ leafHash then false
        else foldPath h proof.path leafHash == expectedRoot

/-- An entry of `verifyBatch`'s input: `{data, proof, root}`. -/
structure BatchEntry where
  data : String
  proof : Proof
  root : Option String
  deriving DecidableEq, Repr

/-- The `for` loop of `verifyBatch`: the guard `!data || !proof` makes a
falsy `data` (the empty string, in the string model) short-circuit to
`false` before `verifyProof` is consulted (a typed `proof` is always
truthy). -/
def verifyBatchLoop (h : String → String) : List BatchEntry → Bool
  | [] => true
  | e :: rest =>
      if e.data = "" then false
      else if verifyProof h e.data e.proof e.root then verifyBatchLoop h rest
      else false

/-- `static verifyBatch(proofs)`: `false` on an empty list, otherwise the
guarded conjunction over the entries. -/
def verifyBatch (h : String → String) : List BatchEntry → Bool
  | [] => false
  | e :: rest => verifyBatchLoop h (e :: rest)

/-! ### `verifyProof` under full JavaScript dynamic semantics

`verifyProofDyn` re-traces `static verifyProof(data, proof, root)` with
the `proof` and `root` arguments as raw JavaScript values, so that the
behaviour on structurally invalid proof objects (missing fields, malformed
`path`) is captured exactly; `Except.error` marks a thrown `TypeError`. -/

/-- The folding loop of `verifyProof` over the values produced by
`for (const sibling of proof.path)`: reading `sibling.position` or
`sibling.hash` throws on a nullish `sibling`; a non-string `hash` is
coerced by string concatenation. -/
def foldPathDyn (h : String → String) :
    List JVal → String → Except Unit String
  | [], current => .ok current
  | sibling :: rest, current =>
      match jGetField sibling "position" with
      | .error e => .error e
      | .ok pos =>
          match jGetField sibling "hash" with
          | .error e => .error e
          | .ok sibHash =>
              if jEqStr pos "left" then
                foldPathDyn h rest (h (jToStr sibHash ++ current))
              else
                foldPathDyn h rest (h (current ++ jToStr sibHash))

/-- `static verifyProof(data, proof, root = null)` on raw JavaScript
values: the guard returns `false` on a falsy `proof`, `proof.path` or
`proof.root`; `expectedRoot = root || proof.root`; a `proof.leaf` not
strictly equal to the recomputed leaf hash returns `false`; then
`for...of` over `proof.path` (a `TypeError` when it is truthy but not
iterable) folds the path and the result is compared to `expectedRoot`
with `===`. -/
def verifyProofDyn (h : String → String) (data : String) (proof : JVal)
    (root : JVal) : Except Unit Bool :=
  if !jTruthy proof then .ok false
  else
    match jGetField proof "path" with
    | .error e => .error e
    | .ok pathV =>
        if !jTruthy pathV then .ok false
        else
          match jGetField proof "root" with
          | .error e => .error e
          | .ok rootV =>
              if !jTruthy rootV then .ok false
              else
                let expectedRoot := if jTruthy root then root else rootV
                match jGetField proof "leaf" with
                | .error e => .error e
                | .ok leafV =>
                    if !jEqStr leafV (h data) then .ok false
                    else
                      match jIterate pathV with
                      | .error e => .error e
                      | .ok siblings =>
                          match foldPathDyn h siblings (h data) with
                          | .error e => .error e
                          | .ok currentHash =>
                              .ok (jEqStr expectedRoot currentHash)

/-- A sufficient well-formedness condition on the `proof` argument under
which `verifyProof` cannot throw: when the proof is an object, its `path`
field is an array with no nullish elements, a string, or falsy (a truthy
non-iterable — number, boolean, object — can reach the `for...of` and
throw; so can a nullish array element, via `sibling.position`). -/
def pathSafe (proof : JVal) : Bool :=
  match proof with
  | .jobj fields =>
      (match ((fields.find? (fun p => p.1 == "path")).map Prod.snd).getD .undef with
       | .jarr l => l.all (fun v => !(jNullish v))
       | .jstr _ => true
       | v => !(jTruthy v))
  | _ => true

/-! ## Ledger data model and `Blockchain` methods

Modelled from the spec: the `Blockchain` core class
(`server/src/core/Blockchain.js`) is not among the provided sources —
only its callers are — so the methods the consensus engine uses are
modelled from sections 3 and 4.2 of the specification. -/

/-- Modelled from the spec: a Transaction
`{ id, from, to, data, timestamp }` (section 3).  The source field names
`from`/`to` are Lean keywords and are rendered `fromId`/`toId`. -/
structure Tx where
  id : String
  fromId : String
  toId : String
  data : String
  timestamp : Nat
  deriving DecidableEq, Repr

/-- Modelled from the spec: the canonical deterministic string encoding of
a transaction (a stable-key JSON encoding; JSON string escaping is elided,
no verified property depends on it — only on determinism of the
encoding). -/
def encodeTx (t : Tx) : String :=
  "\x7bid:" ++ t.id ++ ",from:" ++ t.fromId ++ ",to:" ++ t.toId ++
    ",data:" ++ t.data ++ ",timestamp:" ++ toString t.timestamp ++ "\x7d"

/-- Modelled from the spec: `Ledger.isValidTransaction(tx)` performs
structural validation only — required fields present, `from`/`to`
non-empty (section 4.2). -/
def isValidTransaction (t : Tx) : Bool :=
  t.id != "" && t.fromId != "" && t.toId != ""

/-- A Block `{ index, timestamp, transactions, previousHash, nonce,
merkleRoot, hash }` as the engine constructs and validates it. -/
structure Block where
  index : Nat
  timestamp : Nat
  transactions : List Tx
  previousHash : String
  nonce : Nat
  merkleRoot : String
  hash : String
  deriving DecidableEq, Repr

/-- Modelled from the spec: `Ledger.calculateMerkleRoot(transactions)`
delegates to `MerkleTree.build(transactions).root()` (section 4.2); the
records handed to the tree are the canonical transaction encodings.  Note
that this is a direct `buildTree` call, whose zero-record branch yields
`root = H("")`. -/
def calculateMerkleRoot (h : String → String) (transactions : List Tx) : String :=
  (buildTree h (transactions.map encodeTx)).root.getD ""

/-- Modelled from the spec: the fixed header encoding over which
`Ledger.calculateBlockHash` hashes — index, timestamp, transactions,
previousHash, merkleRoot, nonce, in this order (section 4.2); the stored
`hash` field itself is not an input. -/
def blockHeaderString (index timestamp : Nat) (transactions : List Tx)
    (previousHash merkleRoot : String) (nonce : Nat) : String :=
  toString index ++ "|" ++ toString timestamp ++ "|" ++
    String.intercalate "," (transactions.map encodeTx) ++ "|" ++
    previousHash ++ "|" ++ merkleRoot ++ "|" ++ toString nonce

/-- Modelled from the spec: `Ledger.calculateBlockHash(block)` — a
deterministic hash over the six header fields. -/
def calculateBlockHash (h : String → String) (b : Block) : String :=
  h (blockHeaderString b.index b.timestamp b.transactions b.previousHash b.merkleRoot b.nonce)

/-! ## IEEE-754 binary64 model for the consensus threshold

`checkConsensus` computes `Math.ceil(totalNodes * this.consensusThreshold)`
with `consensusThreshold = 0.67` in JavaScript number (binary64)
arithmetic.  We model the two roundings involved — the literal `0.67` and
the product — exactly: a positive rational is rounded to 53 significant
bits with round-half-to-even.  Exponent overflow and subnormals are not
modelled; every quantity involved is well inside the normal range. -/

/-- Structural, fuel-indexed bit length (the number of binary digits of
`n`), so that closed evaluations reduce inside the kernel. -/
def bitLenAux : Nat → Nat → Nat
  | 0, _ => 0
  | fuel + 1, n => if n = 0 then 0 else bitLenAux fuel (n / 2) + 1

/-- The bit length of `n` (`n` itself always suffices as fuel). -/
def bitLen (n : Nat) : Nat := bitLenAux n n

/-- Round a quotient to the nearest integer, ties to even: `q` is the
floor, and the remainder is compared through `2 * r` against the divisor
`d`. -/
def roundMantissa (q twiceR d : Nat) : Nat :=
  if d < twiceR then q + 1
  else if twiceR < d then q
  else if q % 2 = 0 then q else q + 1

/-- Round the positive rational `num / den` to the nearest IEEE-754
binary64 value, returned as a dyadic pair `(m, e)` of value `m * 2 ^ e`
with a 53-bit significand (ties to even; exponent overflow and subnormals
are not modelled — all quantities involved are well inside the normal
range). -/
def roundRatToDouble (num den : Nat) : Nat × Int :=
  let p0 : Int := 53 + (bitLen den : Int) - (bitLen num : Int)
  let scaleN : Int → Nat := fun p => num * 2 ^ p.toNat
  let scaleD : Int → Nat := fun p => den * 2 ^ (-p).toNat
  -- the quotient scaled by 2 ^ p0 lies in [2^52, 2^54); step down once
  -- when it reaches 2^53 so the significand has exactly 53 bits
  let p := if scaleN p0 / scaleD p0 < 2 ^ 53 then p0 else p0 - 1
  let q := scaleN p / scaleD p
  let r := scaleN p % scaleD p
  (roundMantissa q (2 * r) (scaleD p), -p)

/-- The value of the JavaScript literal `0.67` (`this.consensusThreshold`):
the binary64 value nearest to 67/100, as a dyadic pair. -/
def consensusThreshold : Nat × Int := roundRatToDouble 67 100

/-- Round an exact dyadic `pm * 2 ^ e` (a product of a small integer and a
double) to a 53-bit significand, ties to even — the binary64 rounding of
the product. -/
def roundDyadic (pm : Nat) (e : Int) : Nat × Int :=
  let b := bitLen pm
  if b ≤ 53 then (pm, e)
  else
    let s := b - 53
    (roundMantissa (pm / 2 ^ s) (2 * (pm % 2 ^ s)) (2 ^ s), e + s)

/-- `Math.ceil` of a non-negative dyadic `m * 2 ^ e`, exact for the
integer-valued in-range results it is applied to. -/
def ceilDyadic (m : Nat) (e : Int) : Nat :=
  if 0 ≤ e then m * 2 ^ e.toNat
  else (m + 2 ^ (-e).toNat - 1) / 2 ^ (-e).toNat

/-- `Math.ceil(totalNodes * this.consensusThreshold)` in binary64
arithmetic: the small integer `totalNodes` is exact, the product is
rounded once, and `Math.ceil` of the result is exact. -/
def requiredAgreementJs (totalNodes : Nat) : Nat :=
  let p := roundDyadic (totalNodes * consensusThreshold.1) consensusThreshold.2
  ceilDyadic p.1 p.2

/-! ## ConsensusEngine (`server/src/features/consensus/ConsensusEngine.js`)

The engine instance state: the `Blockchain` chain (modelled from the spec
as the list of appended blocks — `getChainLength()` is its length,
`getLatestBlock()` its last element), the `NodeManager` roster (modelled
from the spec — `getNodeId()` and `getNetworkNodes()` are accessors), and
the `pendingValidations` map, modelled as an insertion-ordered association
list exactly like a JavaScript `Map`.  Methods that mutate the instance
return the new state; `Date.now()` is an explicit `now` argument. -/

/-- A vote `{ blockHash, nodeId, isValid, timestamp }`. -/
structure Vote where
  blockHash : String
  nodeId : String
  isValid : Bool
  timestamp : Nat
  deriving DecidableEq, Repr

/-- A proposal record `{ block, proposerId, timestamp }`. -/
structure Proposal where
  block : Block
  proposerId : String
  timestamp : Nat
  deriving DecidableEq, Repr

/-- A `pendingValidations` entry `{ proposal, votes: [] }`. -/
structure PendingValidation where
  proposal : Proposal
  votes : List Vote
  deriving DecidableEq, Repr

/-- The engine state (engine fields plus the collaborator state it
reads). -/
structure EngineState where
  chain : List Block
  nodeId : String
  networkNodes : List String
  pendingValidations : List (String × PendingValidation)
  deriving DecidableEq, Repr

/-- `Map.prototype.get`. -/
def lookupPending (l : List (String × PendingValidation)) (k : String) :
    Option PendingValidation :=
  (l.find? (fun p => p.1 == k)).map Prod.snd

/-- `Map.prototype.set`: replace in place when the key exists, append
otherwise (JavaScript `Map` preserves insertion order). -/
def setPending (l : List (String × PendingValidation)) (k : String)
    (v : PendingValidation) : List (String × PendingValidation) :=
  match l with
  | [] => [(k, v)]
  | (k2, v2) :: rest =>
      if k2 == k then (k, v) :: rest else (k2, v2) :: setPending rest k v

/-- The first disjunct of the structure check in `validateBlockProposal`:
`!blockProposal.index !== undefined`.  Logical negation binds tighter than
`!==`, so this compares the Boolean `!blockProposal.index` against
`undefined` — and a Boolean value is never `undefined`, so the disjunct
holds for every block, making the whole structure check fail. -/
def indexNotUndefinedCheck (index : Nat) : Bool :=
  !(jIsUndef (JVal.jbool (!(jTruthy (JVal.jnum (index : Int))))))

/-- `validateBlockProposal(blockProposal)` for a well-typed (non-null)
block: the structure check, per-transaction validation, Merkle-root
re-derivation, previous-hash check against the current head (skipped when
the chain is empty), block-hash re-derivation and the index check, in
source order.  (`!Array.isArray(transactions)` is omitted: a typed
transaction list is always an array.) -/
def validateBlockProposal (h : String → String) (s : EngineState) (b : Block) : Bool :=
  if indexNotUndefinedCheck b.index
      || !(jTruthy (JVal.jnum (b.timestamp : Int)))
      || !(jTruthy (JVal.jstr b.previousHash))
      || !(jTruthy (JVal.jstr b.hash))
      || !(jTruthy (JVal.jstr b.merkleRoot)) then false
  else if b.transactions.any (fun tx => !(isValidTransaction tx)) then false
  else if b.merkleRoot != calculateMerkleRoot h b.transactions then false
  else if (match s.chain.getLast? with
           | some latestBlock => b.previousHash != latestBlock.hash
           | none => false) then false
  else if b.hash != calculateBlockHash h b then false
  else if b.index != s.chain.length then false
  else true

/-- The `isValid === null` default of `voteOnBlock`: validate locally when
the caller supplies no verdict.  (In the source this runs just before the
duplicate-vote lookup; it is pure, so hoisting it into the vote that is
built in the no-duplicate branch is observationally identical.) -/
def voteIsValid (h : String → String) (s : EngineState)
    (validation : PendingValidation) : Option Bool → Bool
  | none => validateBlockProposal h s validation.proposal.block
  | some b => b

/-- `voteOnBlock(blockHash, isValid = null)`: requires a truthy hash and a
pending proposal; computes `isValid` via `validateBlockProposal` when not
supplied; returns the existing vote unchanged when this node has already
voted, otherwise pushes and returns a fresh vote. -/
def voteOnBlock (h : String → String) (s : EngineState) (now : Nat)
    (blockHash : String) (isValid : Option Bool) :
    Except String (Vote × EngineState) :=
  if !(jTruthy (JVal.jstr blockHash)) then .error "Block hash is required"
  else
    match lookupPending s.pendingValidations blockHash with
    | none => .error "Block proposal not found"
    | some validation =>
        match validation.votes.find? (fun v => v.nodeId == s.nodeId) with
        | some existingVote => .ok (existingVote, s)
        | none =>
            let vote : Vote :=
              { blockHash, nodeId := s.nodeId,
                isValid := voteIsValid h s validation isValid, timestamp := now }
            let validation2 := { validation with votes := validation.votes ++ [vote] }
            .ok (vote, { s with
              pendingValidations := setPending s.pendingValidations blockHash validation2 })

/-- The consensus status object `checkConsensus` returns.  On an unknown
proposal the source returns only `{blockHash, reached: false, reason}`;
the remaining (absent) fields are modelled by defaults. -/
structure ConsensusStatus where
  blockHash : String
  votes : List Vote
  totalNodes : Nat
  agreementCount : Nat
  requiredAgreement : Nat
  threshold : Nat × Int
  reached : Bool
  reason : Option String
  deriving DecidableEq, Repr

/-- `checkConsensus(blockHash)`: counts the votes with `isValid === true`
against `Math.ceil(totalNodes * this.consensusThreshold)` over the
*current* roster size; a pure read of the engine state. -/
def checkConsensus (s : EngineState) (blockHash : String) : ConsensusStatus :=
  match lookupPending s.pendingValidations blockHash with
  | none =>
      { blockHash, votes := [], totalNodes := 0, agreementCount := 0,
        requiredAgreement := 0, threshold := consensusThreshold,
        reached := false, reason := some "Proposal not found" }
  | some validation =>
      let totalNodes := s.networkNodes.length
      let votes := validation.votes
      let agreementCount := (votes.filter (fun v => v.isValid == true)).length
      let requiredAgreement := requiredAgreementJs totalNodes
      { blockHash, votes, totalNodes, agreementCount, requiredAgreement,
        threshold := consensusThreshold,
        reached := requiredAgreement ≤ agreementCount, reason := none }

/-- The result object of `proposeBlock`. -/
structure ProposeResult where
  proposalId : String
  block : Block
  consensus : ConsensusStatus
  vote : Vote
  deriving DecidableEq, Repr

/-- `proposeBlock(transactions)`: rejects an empty batch and any batch
with an invalid transaction; builds the candidate block on the current
head (`getLatestBlock()?.hash || '0'`), computes its Merkle root and hash,
registers the pending proposal, casts the self-vote (`isValid = true`) and
reports the resulting consensus status.  No block is appended to the
chain. -/
def proposeBlock (h : String → String) (s : EngineState) (now : Nat)
    (transactions : List Tx) : Except String (ProposeResult × EngineState) :=
  if transactions.isEmpty then
    .error "Transactions array is required and cannot be empty"
  else
    let invalidTransactions := transactions.filter (fun tx => !(isValidTransaction tx))
    if invalidTransactions.length > 0 then
      .error ("Invalid transactions found: " ++ toString invalidTransactions.length)
    else
      let index := s.chain.length
      let previousHash := match s.chain.getLast? with
        | some latest => if jTruthy (JVal.jstr latest.hash) then latest.hash else "0"
        | none => "0"
      let merkleRoot := calculateMerkleRoot h transactions
      let hash := h (blockHeaderString index now transactions previousHash merkleRoot 0)
      let blockProposal : Block :=
        { index, timestamp := now, transactions, previousHash, nonce := 0, merkleRoot, hash }
      let proposalId := hash
      let proposerId := s.nodeId
      let newEntry : PendingValidation :=
        { proposal := { block := blockProposal, proposerId, timestamp := now },
          votes := [] }
      let s1 := { s with
        pendingValidations := setPending s.pendingValidations proposalId newEntry }
      match voteOnBlock h s1 now proposalId (some true) with
      | .error e => .error e
      | .ok (vote, s2) =>
          .ok ({ proposalId, block := blockProposal,
                 consensus := checkConsensus s2 proposalId, vote }, s2)

/-- The per-block body of the `for` loop in `_validateChain`, checking
block `i` against block `i - 1`: link, block-hash re-derivation, Merkle
re-derivation.  Index fields are never inspected (they only enter through
the hash input), and the head of the chain is only read for its stored
`hash`. -/
def validateChainFrom (h : String → String) : Block → List Block → Bool
  | _, [] => true
  | previousBlock, currentBlock :: rest =>
      if currentBlock.previousHash != previousBlock.hash then false
      else if currentBlock.hash != calculateBlockHash h currentBlock then false
      else if currentBlock.merkleRoot != calculateMerkleRoot h currentBlock.transactions then false
      else validateChainFrom h currentBlock rest

/-- `_validateChain(chain)`: `false` on an empty chain, otherwise the
pairwise checks from position 1 on. -/
def _validateChain (h : String → String) (chain : List Block) : Bool :=
  match chain with
  | [] => false
  | b :: rest => validateChainFrom h b rest

/-- The sync result object.  The source returns differently-shaped
objects on the two branches; absent fields are `none`. -/
structure SyncResult where
  synced : Bool
  previousLength : Option Nat
  newLength : Option Nat
  sourceNode : Option String
  currentLength : Option Nat
  message : String
  deriving DecidableEq, Repr

/-- The candidate-scanning loop of `syncChain`, carried over the
accumulator `(longestValidChain, longestLength, longestChainNodeId)`:
invalid candidates are skipped, a valid candidate strictly longer than
the running best replaces it.  (`!Array.isArray(chain)` is omitted: a
typed chain is always an array.) -/
def findLongest (h : String → String) :
    List (String × List Block) → Option (List Block) → Nat → Option String →
    Option (List Block) × Nat × Option String
  | [], best, len, nid => (best, len, nid)
  | (nodeId, chain) :: rest, best, len, nid =>
      if !(_validateChain h chain) then findLongest h rest best len nid
      else if chain.length > len then
        findLongest h rest (some chain) chain.length (some nodeId)
      else findLongest h rest best len nid

/-- `syncChain(networkChains)`: scans for the longest valid candidate
strictly longer than the local chain and reports the outcome.  The source
performs no mutation at all (`// For this assessment, we'll just return
the sync result`), so the state is returned unchanged on both branches. -/
def syncChain (h : String → String) (s : EngineState)
    (networkChains : List (String × List Block)) : SyncResult × EngineState :=
  let localChainLength := s.chain.length
  let result := findLongest h networkChains none localChainLength none
  if result.1.isSome && decide (localChainLength < result.2.1) then
    ({ synced := true, previousLength := some localChainLength,
       newLength := some result.2.1, sourceNode := result.2.2,
       currentLength := none,
       message := "Longer valid chain found (sync would occur in production)" }, s)
  else
    ({ synced := false, previousLength := none, newLength := none,
       sourceNode := none, currentLength := some localChainLength,
       message := "Local chain is up to date or no longer valid chain found" }, s)

/-! ## Concrete fixtures

A concrete stand-in hash for evaluating the embedding on explicit inputs.
Every verified property is parametric in the hash; the fixture only has to
be a function (injective on the inputs that occur, and never empty —
`hFix_ne_empty` below). -/

/-- A concrete hash function for closed evaluations. -/
def hFix (s : String) : String := "#(" ++ s ++ ")"

/-- A structurally valid transaction. -/
def txA : Tx :=
  { id := "t1", fromId := "alice", toId := "bob", data := "payload", timestamp := 1 }

/-- A generic pending block used where only the bookkeeping around a
proposal matters. -/
def blk0 : Block :=
  { index := 0, timestamp := 1, transactions := [txA], previousHash := "0",
    nonce := 0, merkleRoot := "m", hash := "bh" }

/-- A fresh single-node engine: empty chain, roster `["n1"]`. -/
def engine1 : EngineState :=
  { chain := [], nodeId := "n1", networkNodes := ["n1"], pendingValidations := [] }

/-- A three-node engine holding one pending proposal with two affirmative
votes (the consensus boundary on three nodes). -/
def engine3 : EngineState :=
  { chain := [], nodeId := "n3", networkNodes := ["n1", "n2", "n3"],
    pendingValidations :=
      [("bh", { proposal := { block := blk0, proposerId := "n1", timestamp := 0 },
                votes :=
                  [{ blockHash := "bh", nodeId := "n1", isValid := true, timestamp := 0 },
                   { blockHash := "bh", nodeId := "n2", isValid := true, timestamp := 0 }] })] }

/-- A three-node engine holding one pending proposal with no votes yet. -/
def engineV : EngineState :=
  { chain := [], nodeId := "n1", networkNodes := ["n1", "n2", "n3"],
    pendingValidations :=
      [("bh", { proposal := { block := blk0, proposerId := "n1", timestamp := 0 },
                votes := [] })] }

/-- The vote the first `voteOnBlock("bh", true)` call on `engineV`
produces. -/
def voteV : Vote := { blockHash := "bh", nodeId := "n1", isValid := true, timestamp := 1 }

/-- `engineV` after that first vote. -/
def engineV1 : EngineState :=
  { engineV with pendingValidations :=
      [("bh", { proposal := { block := blk0, proposerId := "n1", timestamp := 0 },
                votes := [voteV] })] }

/-- A local one-block chain for the synchronisation scenarios. -/
def localGenesis : Block :=
  { index := 0, timestamp := 0, transactions := [], previousHash := "0",
    nonce := 0, merkleRoot := "mr0", hash := "g0" }

/-- The engine owning that local chain. -/
def engineSync : EngineState :=
  { chain := [localGenesis], nodeId := "n1", networkNodes := ["n1"],
    pendingValidations := [] }

/-- A candidate genesis whose stored `hash` and `merkleRoot` do NOT
re-derive (`hFix` of its header is not `"g"`) and whose `index` is 42. -/
def candGenesis : Block :=
  { index := 42, timestamp := 0, transactions := [], previousHash := "0",
    nonce := 0, merkleRoot := "junk", hash := "g" }

/-- A candidate second block that links to the corrupted genesis by its
stored hash, carries `index = 7` (not its position 1), and whose own hash
and Merkle root re-derive correctly under `hFix`. -/
def candBlock1 : Block :=
  { index := 7, timestamp := 2, transactions := [txA], previousHash := "g",
    nonce := 0, merkleRoot := calculateMerkleRoot hFix [txA],
    hash := hFix (blockHeaderString 7 2 [txA] "g" (calculateMerkleRoot hFix [txA]) 0) }

/-- The two-block candidate chain: corrupted genesis, valid tail. -/
def candChain : List Block := [candGenesis, candBlock1]

/-! ## Helper lemmas -/

theorem buildLevel_length (h : String → String) :
    ∀ l : List String, (buildLevel h l).length = (l.length + 1) / 2
  | [] => by simp [buildLevel]
  | [_] => by simp [buildLevel]
  | _ :: _ :: rest => by
      simp only [buildLevel, List.length_cons, buildLevel_length h rest]
      omega

theorem growLevelsAux_congr (h : String → String) :
    ∀ (f1 : Nat) (f2 : Nat) (cur : List String), cur.length ≤ f1 → cur.length ≤ f2 →
      growLevelsAux h f1 cur = growLevelsAux h f2 cur := by
  intro f1
  induction f1 with
  | zero =>
      intro f2 cur h1 h2
      cases f2 with
      | zero => rfl
      | succ g =>
          have hz : cur.length = 0 := Nat.le_zero.mp h1
          simp [growLevelsAux, hz]
  | succ f ih =>
      intro f2 cur h1 h2
      cases f2 with
      | zero =>
          have hz : cur.length = 0 := Nat.le_zero.mp h2
          simp [growLevelsAux, hz]
      | succ g =>
          simp only [growLevelsAux]
          by_cases hlen : cur.length > 1
          · simp only [if_pos hlen, List.cons.injEq, true_and]
            have hnext : (buildLevel h cur).length = (cur.length + 1) / 2 :=
              buildLevel_length h cur
            exact ih g (buildLevel h cur) (by omega) (by omega)
          · simp [hlen]

/-- The one-step unfolding of `growLevels`, mirroring the source loop. -/
theorem growLevels_eq (h : String → String) (cur : List String) :
    growLevels h cur =
      if cur.length > 1 then
        buildLevel h cur :: growLevels h (buildLevel h cur)
      else [] := by
  match cur with
  | [] => rfl
  | [a] => rfl
  | a :: b :: t =>
      have hgt : (a :: b :: t).length > 1 := by simp
      rw [if_pos hgt]
      show growLevelsAux h (a :: b :: t).length (a :: b :: t) = _
      have hlen2 : (a :: b :: t).length = t.length + 1 + 1 := by simp
      rw [hlen2]
      simp only [growLevelsAux, if_pos hgt, List.cons.injEq, true_and]
      have hnext : (buildLevel h (a :: b :: t)).length = ((a :: b :: t).length + 1) / 2 :=
        buildLevel_length h (a :: b :: t)
      exact growLevelsAux_congr h (t.length + 1) (buildLevel h (a :: b :: t)).length
        (buildLevel h (a :: b :: t)) (by simp at hnext; omega) (le_refl _)

theorem hFix_ne_empty : ∀ s, hFix s ≠ "" := by
  intro s hs
  have hlen := congrArg String.length hs
  simp [hFix, String.length_append] at hlen
  exact absurd hlen.2 (by decide)

theorem find?_append_of_none {α : Type} (p : α → Bool) (l1 l2 : List α)
    (h : l1.find? p = none) : (l1 ++ l2).find? p = l2.find? p := by
  induction l1 with
  | nil => simp
  | cons a t ih =>
      cases hpa : p a with
      | true =>
          rw [List.find?_cons_of_pos _ hpa] at h
          exact absurd h (by simp)
      | false =>
          have hpa2 : ¬ p a = true := by simp [hpa]
          rw [List.find?_cons_of_neg _ hpa2] at h
          show List.find? p (a :: (t ++ l2)) = List.find? p l2
          rw [List.find?_cons_of_neg _ hpa2]
          exact ih h

theorem lookupPending_setPending_self (l : List (String × PendingValidation))
    (k : String) (v : PendingValidation) :
    lookupPending (setPending l k v) k = some v := by
  induction l with
  | nil => simp [setPending, lookupPending, List.find?_cons]
  | cons p rest ih =>
      obtain ⟨k2, v2⟩ := p
      by_cases hk : k2 == k
      · simp [setPending, hk, lookupPending, List.find?_cons]
      · simp only [setPending, hk, if_neg]
        simpa [lookupPending, List.find?_cons, hk] using ih

/-- `validateChainFrom` reads its first argument only through its stored
`hash` field: the genesis of a candidate chain is never re-derived. -/
theorem validateChainFrom_only_reads_hash (h : String → String)
    (g g2 : Block) (rest : List Block) (hgh : g.hash = g2.hash) :
    validateChainFrom h g rest = validateChainFrom h g2 rest := by
  cases rest with
  | nil => rfl
  | cons b t => simp [validateChainFrom, hgh]

/-! ## Claims -/

/-- C1: the claim states that `validateBlockProposal` accepts every fresh
proposal built by `proposeBlock` on an unchanged head and rejects blocks
with stale or corrupted fields.  The code cannot do this: the structure
check begins with `!blockProposal.index !== undefined`, in which the `!`
binds before `!==`, so a Boolean is compared against `undefined` — the
disjunct is true for every block and the function returns `false` on all
inputs, contradicting its own documentation (`@returns {boolean} True if
block is valid`). -/
theorem validateBlockProposal_always_false (h : String → String)
    (s : EngineState) (b : Block) : validateBlockProposal h s b = false := by
  simp [validateBlockProposal, indexNotUndefinedCheck, jIsUndef]

/-- C3 counterexample: on the tree constructed over zero records,
`getRoot()` throws `Tree has not been built` instead of returning the hash
of the empty string, because the constructor only calls `buildTree` when
`data.length > 0` and leaves `this.root = null`. -/
theorem emptyTree_getRoot_fails :
    getRoot (mkMerkleTree hFix []) = .error "Tree has not been built" := rfl

/-- C3 (amended): constructing a `MerkleTree` over zero records succeeds
but leaves the tree unbuilt — `root` is `null`, `getRoot()` throws
`Tree has not been built`, and a proof request throws `Tree is empty`;
only a direct `buildTree` call over zero records sets `root = H("")`. -/
theorem mkMerkleTree_empty_unbuilt :
    ∀ (h : String → String) (r : String),
      (mkMerkleTree h []).root = none
      ∧ getRoot (mkMerkleTree h []) = .error "Tree has not been built"
      ∧ getProof h (mkMerkleTree h []) r = .error "Tree is empty"
      ∧ (buildTree h []).root = some (h "") := by
  intro h r
  exact ⟨rfl, rfl, rfl, rfl⟩

/-- C10: the chain validation used by `syncChain` never re-derives the
genesis block (position 0) and never inspects index fields: the concrete
candidate `candChain` — whose genesis carries a hash and Merkle root that
do not re-derive and whose blocks carry indices 42 and 7 at positions 0
and 1 — still validates, because every block from position 1 on links to
its predecessor by stored hash and re-derives its own hash and Merkle
root.  The general fact that the predecessor is only read through its
stored `hash` is `validateChainFrom_only_reads_hash` above. -/
theorem validateChain_skips_genesis_and_index :
    _validateChain hFix candChain = true
    ∧ candGenesis.hash ≠ calculateBlockHash hFix candGenesis
    ∧ candGenesis.merkleRoot ≠ calculateMerkleRoot hFix candGenesis.transactions
    ∧ candGenesis.index = 42 ∧ candBlock1.index = 7 := by
  refine ⟨by decide, by decide, by decide, rfl, rfl⟩

/-- C5 counterexample: a two-block candidate that is strictly longer than
the local one-block chain and fully re-validates makes `syncChain` report
`synced = true` with the new length — yet the engine state (and so the
local chain) is left exactly as it was: nothing is replaced, refuting
"replaces the local chain". -/
theorem syncChain_reports_but_does_not_replace :
    (syncChain hFix engineSync [("peer", candChain)]).1.synced = true
    ∧ (syncChain hFix engineSync [("peer", candChain)]).1.newLength = some 2
    ∧ (syncChain hFix engineSync [("peer", candChain)]).2 = engineSync
    ∧ engineSync.chain = [localGenesis] := by
  refine ⟨by decide, by decide, by decide, rfl⟩

/-- C2 counterexample: on a fresh single-node engine, `proposeBlock`
immediately reaches consensus (`reached = true`, the self-vote meeting the
quorum of 1), yet the chain after the call is the chain before it — no
block is appended anywhere in the engine, refuting "the proposed block is
appended to the ledger ... `getChainLength()` increases by 1". -/
theorem checkConsensus_reached_without_append :
    ((proposeBlock hFix engine1 5 [txA]).toOption.map
        (fun p => p.1.consensus.reached) = some true)
    ∧ ((proposeBlock hFix engine1 5 [txA]).toOption.map
        (fun p => p.2.chain) = some engine1.chain) := by
  exact ⟨rfl, rfl⟩

theorem voteOnBlock_chain_eq (h : String → String) (s : EngineState)
    (now : Nat) (bh : String) (iv : Option Bool) (v : Vote) (s2 : EngineState)
    (hv : voteOnBlock h s now bh iv = .ok (v, s2)) : s2.chain = s.chain := by
  unfold voteOnBlock at hv
  split at hv
  · exact absurd hv (by simp)
  · split at hv
    · exact absurd hv (by simp)
    · split at hv
      · simp only [Except.ok.injEq, Prod.mk.injEq] at hv
        rw [← hv.2]
      · simp only [Except.ok.injEq, Prod.mk.injEq] at hv
        rw [← hv.2]

theorem proposeBlock_chain_eq (h : String → String) (s : EngineState)
    (now : Nat) (txs : List Tx) (r : ProposeResult) (s2 : EngineState)
    (hp : proposeBlock h s now txs = .ok (r, s2)) : s2.chain = s.chain := by
  unfold proposeBlock at hp
  by_cases he : txs.isEmpty = true
  · rw [if_pos he] at hp
    exact absurd hp (by simp)
  · rw [if_neg he] at hp
    dsimp only at hp
    by_cases hinv : (List.filter (fun tx => !isValidTransaction tx) txs).length > 0
    · rw [if_pos hinv] at hp
      exact absurd hp (by simp)
    · rw [if_neg hinv] at hp
      split at hp
      · exact absurd hp (by simp)
      · rename_i vote s3 hvb
        simp only [Except.ok.injEq, Prod.mk.injEq] at hp
        rw [← hp.2]
        have hchain := voteOnBlock_chain_eq h _ now _ (some true) vote s3 hvb
        exact hchain

/-- C2 (amended): reaching `reached = true` appends nothing — the engine
never mutates the chain: `checkConsensus` is a pure read of the state, and
both `voteOnBlock` and `proposeBlock` (which encloses the self-vote and
the consensus check) return a state with the chain exactly as it was, so
`getChainLength()` is unchanged.  Finalization/append is not implemented
anywhere in the engine. -/
theorem engine_never_appends :
    (∀ (h : String → String) (s : EngineState) (now : Nat) (bh : String)
        (iv : Option Bool) (v : Vote) (s2 : EngineState),
        voteOnBlock h s now bh iv = .ok (v, s2) → s2.chain = s.chain)
    ∧ (∀ (h : String → String) (s : EngineState) (now : Nat) (txs : List Tx)
        (r : ProposeResult) (s2 : EngineState),
        proposeBlock h s now txs = .ok (r, s2) → s2.chain = s.chain) :=
  ⟨voteOnBlock_chain_eq, proposeBlock_chain_eq⟩

/-- C2 amended-claim witness: the concrete first vote on `engineV`
(returning `voteV` and state `engineV1`) leaves the chain untouched. -/
theorem engine_never_appends_witness : engineV1.chain = engineV.chain :=
  engine_never_appends.1 hFix engineV 1 "bh" (some true) voteV engineV1 rfl

theorem checkConsensus_of_some (s : EngineState) (bh : String)
    (v : PendingValidation)
    (hv : lookupPending s.pendingValidations bh = some v) :
    checkConsensus s bh =
      { blockHash := bh, votes := v.votes, totalNodes := s.networkNodes.length,
        agreementCount := (v.votes.filter (fun w => w.isValid == true)).length,
        requiredAgreement := requiredAgreementJs s.networkNodes.length,
        threshold := consensusThreshold,
        reached := decide (requiredAgreementJs s.networkNodes.length ≤
          (v.votes.filter (fun w => w.isValid == true)).length),
        reason := none } := by
  unfold checkConsensus
  rw [hv]

/-- C4: for every pending proposal, `checkConsensus` reports
`reached = true` exactly when the count of `isValid = true` votes is at
least `ceil(totalNodes * 0.67)` with `totalNodes` the current roster size,
for all rosters of size 1, 3, 4 and 10 (the sizes the claim fixes); in
particular on three nodes the bar is 3, so two affirmative votes fall
short and a third reaches it.  The code side computes
`Math.ceil(totalNodes * 0.67)` in binary64 arithmetic (modelled exactly by
`requiredAgreementJs`), which agrees with the exact rational ceiling at
these sizes. -/
theorem checkConsensus_ceil_threshold :
    ∀ (s : EngineState) (bh : String),
      (lookupPending s.pendingValidations bh).isSome = true →
      (s.networkNodes.length = 1 ∨ s.networkNodes.length = 3 ∨
        s.networkNodes.length = 4 ∨ s.networkNodes.length = 10) →
      ((checkConsensus s bh).reached = true ↔
        ⌈(s.networkNodes.length : ℚ) * (67 / 100)⌉₊ ≤
          (checkConsensus s bh).agreementCount) := by
  intro s bh hsome hn
  obtain ⟨v, hv⟩ : ∃ v, lookupPending s.pendingValidations bh = some v := by
    cases hl : lookupPending s.pendingValidations bh with
    | none => rw [hl] at hsome; simp at hsome
    | some v => exact ⟨v, rfl⟩
  rw [checkConsensus_of_some s bh v hv]
  dsimp only
  rcases hn with hc | hc | hc | hc <;> rw [hc]
  · rw [show requiredAgreementJs 1 = 1 by decide,
      show (⌈((1 : ℕ) : ℚ) * (67 / 100)⌉₊ : ℕ) = 1 by
        rw [show ((1 : ℕ) : ℚ) * (67 / 100) = 67 / 100 by norm_num,
          Nat.ceil_eq_iff (by norm_num)]
        norm_num]
    simp only [decide_eq_true_eq]
  · rw [show requiredAgreementJs 3 = 3 by decide,
      show (⌈((3 : ℕ) : ℚ) * (67 / 100)⌉₊ : ℕ) = 3 by
        rw [show ((3 : ℕ) : ℚ) * (67 / 100) = 201 / 100 by norm_num,
          Nat.ceil_eq_iff (by norm_num)]
        norm_num]
    simp only [decide_eq_true_eq]
  · rw [show requiredAgreementJs 4 = 3 by decide,
      show (⌈((4 : ℕ) : ℚ) * (67 / 100)⌉₊ : ℕ) = 3 by
        rw [show ((4 : ℕ) : ℚ) * (67 / 100) = 268 / 100 by norm_num,
          Nat.ceil_eq_iff (by norm_num)]
        norm_num]
    simp only [decide_eq_true_eq]
  · rw [show requiredAgreementJs 10 = 7 by decide,
      show (⌈((10 : ℕ) : ℚ) * (67 / 100)⌉₊ : ℕ) = 7 by
        rw [show ((10 : ℕ) : ℚ) * (67 / 100) = 670 / 100 by norm_num,
          Nat.ceil_eq_iff (by norm_num)]
        norm_num]
    simp only [decide_eq_true_eq]

/-- C4 witness: on the three-node engine with two affirmative votes the
quorum statement instantiates concretely (and the bar, `ceil(3 * 0.67) = 3`,
exceeds the two collected votes). -/
theorem checkConsensus_ceil_threshold_witness :
    (checkConsensus engine3 "bh").reached = true ↔
      ⌈(engine3.networkNodes.length : ℚ) * (67 / 100)⌉₊ ≤
        (checkConsensus engine3 "bh").agreementCount :=
  checkConsensus_ceil_threshold engine3 "bh" (by decide) (Or.inr (Or.inl rfl))

/-- C7: one vote per node per block — after a successful `voteOnBlock`
call that returned vote `v` and state `s1`, a second call for the same
block hash (by the same node, since the engine always votes as its own
`nodeId`) returns exactly `(v, s1)`: the stored first vote unchanged, no
new vote added (the state is identical), and therefore the
`agreementCount` reported by `checkConsensus` on that state is
unchanged. -/
theorem voteOnBlock_first_vote_wins :
    ∀ (h : String → String) (s : EngineState) (now1 : Nat) (bh : String)
      (iv1 : Option Bool) (v : Vote) (s1 : EngineState),
      voteOnBlock h s now1 bh iv1 = .ok (v, s1) →
      ∀ (now2 : Nat) (iv2 : Option Bool),
        voteOnBlock h s1 now2 bh iv2 = .ok (v, s1) := by
  intro h s now1 bh iv1 v s1 hvote now2 iv2
  unfold voteOnBlock at hvote ⊢
  by_cases hbh : (!jTruthy (JVal.jstr bh)) = true
  · rw [if_pos hbh] at hvote
    exact absurd hvote (by simp)
  · rw [if_neg hbh] at hvote
    rw [if_neg hbh]
    cases hlk : lookupPending s.pendingValidations bh with
    | none =>
        rw [hlk] at hvote
        exact absurd hvote (by simp)
    | some validation =>
        rw [hlk] at hvote
        dsimp only at hvote
        cases hf : validation.votes.find? (fun w => w.nodeId == s.nodeId) with
        | some existing =>
            rw [hf] at hvote
            simp only [Except.ok.injEq, Prod.mk.injEq] at hvote
            obtain ⟨hv1, hs1⟩ := hvote
            subst hv1; subst hs1
            rw [hlk]
            dsimp only
            rw [hf]
        | none =>
            rw [hf] at hvote
            simp only [Except.ok.injEq, Prod.mk.injEq] at hvote
            obtain ⟨hv1, hs1⟩ := hvote
            subst hv1; subst hs1
            dsimp only
            rw [lookupPending_setPending_self]
            dsimp only
            rw [find?_append_of_none _ _ _ hf]
            simp [List.find?]

/-- C7 witness: on the concrete engine `engineV` the first vote returns
`(voteV, engineV1)` and the immediate re-vote (with a different verdict
and timestamp) returns the same pair. -/
theorem voteOnBlock_first_vote_wins_witness :
    voteOnBlock hFix engineV1 2 "bh" (some false) = .ok (voteV, engineV1) :=
  voteOnBlock_first_vote_wins hFix engineV 1 "bh" (some true) voteV engineV1 rfl
    2 (some false)

theorem findLongest_spec (h : String → String) (L : Nat) :
    ∀ (cs : List (String × List Block)) (best0 : Option (List Block))
      (len0 : Nat) (nid0 : Option String),
      L ≤ len0 → best0.isSome = decide (L < len0) →
      ((findLongest h cs best0 len0 nid0).1.isSome &&
        decide (L < (findLongest h cs best0 len0 nid0).2.1)) =
      (best0.isSome ||
        cs.any (fun p => _validateChain h p.2 && decide (L < p.2.length))) := by
  intro cs
  induction cs with
  | nil =>
      intro best0 len0 nid0 hlen hsome
      simp only [findLongest, List.any_nil, Bool.or_false]
      rw [hsome, Bool.and_self]
  | cons p rest ih =>
      obtain ⟨nodeId, chain⟩ := p
      intro best0 len0 nid0 hlen hsome
      by_cases hvalid : _validateChain h chain = true
      · by_cases hlonger : chain.length > len0
        · simp only [findLongest, hvalid, Bool.not_true, Bool.false_eq_true,
            if_false, if_pos hlonger]
          rw [ih (some chain) chain.length (some nodeId) (by omega)
            (by simp; omega)]
          simp only [List.any_cons, hvalid, Bool.true_and, Option.isSome_some,
            Bool.true_or]
          have : decide (L < chain.length) = true := by simp; omega
          rw [this]
          simp
        · simp only [findLongest, hvalid, Bool.not_true, Bool.false_eq_true,
            if_false, if_neg hlonger]
          rw [ih best0 len0 nid0 hlen hsome]
          simp only [List.any_cons, hvalid, Bool.true_and]
          cases hb : best0.isSome with
          | true => simp
          | false =>
              rw [hb] at hsome
              have hLlen : ¬ L < len0 := by
                intro hc
                simp [hc] at hsome
              have : decide (L < chain.length) = false := by
                simp
                omega
              rw [this]
              simp
      · have hvf : _validateChain h chain = false := by
          cases hx : _validateChain h chain
          · rfl
          · exact absurd hx hvalid
        simp only [findLongest, hvf, Bool.not_false, if_true]
        rw [ih best0 len0 nid0 hlen hsome]
        simp [hvf]

theorem findLongest_provenance (h : String → String) :
    ∀ (cs : List (String × List Block)) (best : Option (List Block))
      (len : Nat) (nid : Option String),
      len ≤ (findLongest h cs best len nid).2.1
      ∧ (∀ p ∈ cs, _validateChain h p.2 = true →
          p.2.length ≤ (findLongest h cs best len nid).2.1)
      ∧ (findLongest h cs best len nid = (best, len, nid)
         ∨ ∃ p ∈ cs, _validateChain h p.2 = true
             ∧ (findLongest h cs best len nid).1 = some p.2
             ∧ (findLongest h cs best len nid).2.1 = p.2.length
             ∧ (findLongest h cs best len nid).2.2 = some p.1
             ∧ len < p.2.length) := by
  intro cs
  induction cs with
  | nil =>
      intro best len nid
      exact ⟨le_refl _, by simp, Or.inl rfl⟩
  | cons p rest ih =>
      obtain ⟨nodeId, chain⟩ := p
      intro best len nid
      by_cases hvalid : _validateChain h chain = true
      · by_cases hlonger : chain.length > len
        · have hfl : findLongest h ((nodeId, chain) :: rest) best len nid =
              findLongest h rest (some chain) chain.length (some nodeId) := by
            simp [findLongest, hvalid, hlonger]
          obtain ⟨ha, hb, hc⟩ := ih (some chain) chain.length (some nodeId)
          refine ⟨?_, ?_, ?_⟩
          · rw [hfl]
            exact le_trans (le_of_lt hlonger) ha
          · intro q hq hqv
            rw [hfl]
            rcases List.mem_cons.mp hq with heq | hqr
            · rw [heq]
              exact ha
            · exact hb q hqr hqv
          · rcases hc with hc | ⟨q, hq, hqv, h1, h2, h3, h4⟩
            · right
              refine ⟨(nodeId, chain), by simp, hvalid, ?_, ?_, ?_, hlonger⟩
              · rw [hfl, hc]
              · rw [hfl, hc]
              · rw [hfl, hc]
            · right
              exact ⟨q, List.mem_cons_of_mem _ hq, hqv,
                by rw [hfl]; exact h1, by rw [hfl]; exact h2,
                by rw [hfl]; exact h3, by omega⟩
        · have hfl : findLongest h ((nodeId, chain) :: rest) best len nid =
              findLongest h rest best len nid := by
            simp [findLongest, hvalid, hlonger]
          obtain ⟨ha, hb, hc⟩ := ih best len nid
          refine ⟨by rw [hfl]; exact ha, ?_, ?_⟩
          · intro q hq hqv
            rw [hfl]
            rcases List.mem_cons.mp hq with heq | hqr
            · rw [heq]
              exact le_trans (Nat.not_lt.mp hlonger) ha
            · exact hb q hqr hqv
          · rcases hc with hc | ⟨q, hq, hqv, h1, h2, h3, h4⟩
            · left
              rw [hfl, hc]
            · right
              exact ⟨q, List.mem_cons_of_mem _ hq, hqv,
                by rw [hfl]; exact h1, by rw [hfl]; exact h2,
                by rw [hfl]; exact h3, h4⟩
      · have hvf : _validateChain h chain = false := by
          cases hx : _validateChain h chain
          · rfl
          · exact absurd hx hvalid
        have hfl : findLongest h ((nodeId, chain) :: rest) best len nid =
            findLongest h rest best len nid := by
          simp [findLongest, hvf]
        obtain ⟨ha, hb, hc⟩ := ih best len nid
        refine ⟨by rw [hfl]; exact ha, ?_, ?_⟩
        · intro q hq hqv
          rw [hfl]
          rcases List.mem_cons.mp hq with heq | hqr
          · rw [heq] at hqv
            exact absurd hqv (by simp [hvf])
          · exact hb q hqr hqv
        · rcases hc with hc | ⟨q, hq, hqv, h1, h2, h3, h4⟩
          · left
            rw [hfl, hc]
          · right
            exact ⟨q, List.mem_cons_of_mem _ hq, hqv,
              by rw [hfl]; exact h1, by rw [hfl]; exact h2,
              by rw [hfl]; exact h3, h4⟩

/-- C5 (amended): `syncChain` *selects and reports* — but does not adopt —
the longest fully re-validated candidate strictly longer than the local
chain: the engine state is returned unchanged on every input (the source
only returns the sync result; replacement is explicitly left to
production code); `synced = true` exactly when some candidate both
re-validates under `_validateChain` and is strictly longer than the local
chain — so equal-length candidates are never selected (tie favours local)
and corrupted longer candidates are rejected, the local chain being left
unchanged in every case; and whenever `synced = true` the reported fields
identify a longest valid candidate: `previousLength` is the local length,
and `newLength`/`sourceNode` are the length and advertising node of an
actual input candidate that re-validates, is strictly longer than the
local chain, and than which no valid candidate is longer. -/
theorem syncChain_selects_longest_without_replacing :
    ∀ (h : String → String) (s : EngineState)
      (chains : List (String × List Block)),
      (syncChain h s chains).2 = s
      ∧ ((syncChain h s chains).1.synced =
          chains.any (fun p =>
            _validateChain h p.2 && decide (s.chain.length < p.2.length)))
      ∧ ((syncChain h s chains).1.synced = true →
          (syncChain h s chains).1.previousLength = some s.chain.length
          ∧ ∃ p ∈ chains, _validateChain h p.2 = true
              ∧ s.chain.length < p.2.length
              ∧ (syncChain h s chains).1.newLength = some p.2.length
              ∧ (syncChain h s chains).1.sourceNode = some p.1
              ∧ ∀ q ∈ chains, _validateChain h q.2 = true →
                  q.2.length ≤ p.2.length) := by
  intro h s chains
  have hsynced : (syncChain h s chains).1.synced =
      ((findLongest h chains none s.chain.length none).1.isSome &&
        decide (s.chain.length <
          (findLongest h chains none s.chain.length none).2.1)) := by
    unfold syncChain
    dsimp only
    split
    · rename_i hcond
      simp [hcond]
    · rename_i hcond
      simp only [Bool.not_eq_true] at hcond
      simp [hcond]
  refine ⟨?_, ?_, ?_⟩
  · unfold syncChain
    dsimp only
    split <;> rfl
  · rw [hsynced]
    exact findLongest_spec h s.chain.length chains none s.chain.length none
      (le_refl _) (by simp)
  · intro hsync
    have hcond : ((findLongest h chains none s.chain.length none).1.isSome &&
        decide (s.chain.length <
          (findLongest h chains none s.chain.length none).2.1)) = true := by
      rw [← hsynced]
      exact hsync
    have hfields : syncChain h s chains =
        ({ synced := true, previousLength := some s.chain.length,
           newLength := some (findLongest h chains none s.chain.length none).2.1,
           sourceNode := (findLongest h chains none s.chain.length none).2.2,
           currentLength := none,
           message := "Longer valid chain found (sync would occur in production)" },
         s) := by
      unfold syncChain
      dsimp only
      rw [if_pos hcond]
    obtain ⟨-, hb, hc⟩ := findLongest_provenance h chains none s.chain.length none
    rcases hc with hc | ⟨p, hp, hpv, -, h2, h3, h4⟩
    · rw [hc] at hcond
      simp at hcond
    · refine ⟨by rw [hfields], p, hp, hpv, h4, ?_, ?_, ?_⟩
      · rw [hfields]
        dsimp only
        rw [h2]
      · rw [hfields]
        dsimp only
        rw [h3]
      · intro q hq hqv
        rw [← h2]
        exact hb q hq hqv

/-- C5 amended-claim witness: on the concrete one-candidate input the
conditional conjunct instantiates — the reported fields name the (unique,
hence longest) valid strictly-longer candidate. -/
theorem syncChain_selects_longest_witness :
    (syncChain hFix engineSync [("peer", candChain)]).1.previousLength =
      some engineSync.chain.length
    ∧ ∃ p ∈ [("peer", candChain)], _validateChain hFix p.2 = true
        ∧ engineSync.chain.length < p.2.length
        ∧ (syncChain hFix engineSync [("peer", candChain)]).1.newLength =
            some p.2.length
        ∧ (syncChain hFix engineSync [("peer", candChain)]).1.sourceNode =
            some p.1
        ∧ ∀ q ∈ [("peer", candChain)], _validateChain hFix q.2 = true →
            q.2.length ≤ p.2.length :=
  (syncChain_selects_longest_without_replacing hFix engineSync
    [("peer", candChain)]).2.2 (by decide)

theorem verifyBatchLoop_eq_all (h : String → String) :
    ∀ entries : List BatchEntry,
      verifyBatchLoop h entries =
        entries.all (fun e => e.data != "" && verifyProof h e.data e.proof e.root) := by
  intro entries
  induction entries with
  | nil => rfl
  | cons e rest ih =>
      by_cases hd : e.data = ""
      · simp [verifyBatchLoop, hd]
      · by_cases hv : verifyProof h e.data e.proof e.root = true
        · simp [verifyBatchLoop, hd, hv, ih]
        · simp only [Bool.not_eq_true] at hv
          simp [verifyBatchLoop, hd, hv]

/-- C8 (amended): `verifyBatch` returns `false` on an empty input list,
and on a non-empty list returns `true` iff every entry has a truthy
(non-empty-string) record AND its `(record, proof, root)` triple verifies
via `verifyProof` — in particular tampering any entry root makes it
`false`, but an entry whose record is the empty string also makes the
batch `false` even when its triple individually verifies (the
`!data || !proof` guard), so the unguarded "iff every entry individually
verifies" of the claim does not hold. -/
theorem verifyBatch_characterization (h : String → String) :
    verifyBatch h [] = false
    ∧ ∀ (e : BatchEntry) (rest : List BatchEntry),
        verifyBatch h (e :: rest) =
          (e :: rest).all
            (fun x => x.data != "" && verifyProof h x.data x.proof x.root) :=
  ⟨rfl, fun e rest => verifyBatchLoop_eq_all h (e :: rest)⟩

/-- C8 counterexample: over the single-record list `[""]` the proof for
the empty-string record individually verifies against the tree root, yet
`verifyBatch` on that single (individually valid) entry returns `false`,
because the falsy record short-circuits the loop guard — refuting the
claimed "true if and only if every entry individually verifies". -/
theorem verifyBatch_falsy_record_cex :
    getProof hFix (mkMerkleTree hFix [""]) "" =
      .ok { leaf := hFix "", path := [], root := some (hFix "") }
    ∧ verifyProof hFix "" { leaf := hFix "", path := [], root := some (hFix "") }
        (some (hFix "")) = true
    ∧ verifyBatch hFix
        [{ data := "",
           proof := { leaf := hFix "", path := [], root := some (hFix "") },
           root := some (hFix "") }] = false := by
  refine ⟨rfl, rfl, rfl⟩

theorem jGetField_ok_of_not_nullish (v : JVal) (k : String)
    (hnn : jNullish v = false) : ∃ w, jGetField v k = .ok w := by
  cases v <;> simp [jGetField] <;> simp [jNullish] at hnn

theorem foldPathDyn_ok (h : String → String) :
    ∀ (l : List JVal) (cur : String),
      (∀ v ∈ l, jNullish v = false) →
      ∃ r, foldPathDyn h l cur = .ok r := by
  intro l
  induction l with
  | nil => intro cur _; exact ⟨cur, rfl⟩
  | cons sibling rest ih =>
      intro cur hnn
      obtain ⟨pos, hpos⟩ :=
        jGetField_ok_of_not_nullish sibling "position" (hnn sibling (by simp))
      obtain ⟨sh, hsh⟩ :=
        jGetField_ok_of_not_nullish sibling "hash" (hnn sibling (by simp))
      have hrest : ∀ v ∈ rest, jNullish v = false := fun v hv =>
        hnn v (List.mem_cons_of_mem _ hv)
      unfold foldPathDyn
      rw [hpos, hsh]
      dsimp only
      by_cases hleft : jEqStr pos "left" = true
      · rw [if_pos hleft]
        exact ih (h (jToStr sh ++ cur)) hrest
      · rw [if_neg hleft]
        exact ih (h (cur ++ jToStr sh)) hrest

theorem foldPathDyn_error (h : String → String) :
    ∀ (l : List JVal) (cur : String),
      (∃ v ∈ l, jNullish v = true) → foldPathDyn h l cur = .error () := by
  intro l
  induction l with
  | nil =>
      intro cur hex
      obtain ⟨v, hv, -⟩ := hex
      simp at hv
  | cons s rest ih =>
      intro cur hex
      by_cases hs : jNullish s = true
      · have hgf : jGetField s "position" = .error () := by
          cases s <;> first | rfl | simp [jNullish] at hs
        unfold foldPathDyn
        rw [hgf]
      · have hs2 : jNullish s = false := by
          cases hx : jNullish s
          · rfl
          · exact absurd hx hs
        obtain ⟨pos, hpos⟩ := jGetField_ok_of_not_nullish s "position" hs2
        obtain ⟨sh, hsh⟩ := jGetField_ok_of_not_nullish s "hash" hs2
        have hrest : ∃ v ∈ rest, jNullish v = true := by
          obtain ⟨v, hv, hnv⟩ := hex
          rcases List.mem_cons.mp hv with heq | hvr
          · rw [heq] at hnv
            exact absurd hnv hs
          · exact ⟨v, hvr, hnv⟩
        unfold foldPathDyn
        rw [hpos, hsh]
        dsimp only
        by_cases hleft : jEqStr pos "left" = true
        · rw [if_pos hleft]
          exact ih _ hrest
        · rw [if_neg hleft]
          exact ih _ hrest

/-- C9 (amended): `verifyProof` is NOT a total predicate over raw
JavaScript proof values.  It does return `false` without throwing on the
structural failures the guard chain reaches — a falsy proof (conjunct 1),
a falsy `path` field (conjunct 2), a falsy `root` field whatever the
shape of the truthy `path` (conjunct 3), and a `leaf` field that is not
strictly equal to the recomputed leaf hash (conjunct 4) — and it returns
a Boolean without throwing on every proof whose `path` field is well
formed in the sense of `pathSafe` (conjunct 5).  But it can throw: a
nullish element inside an array `path` reaches `sibling.position` and
throws a `TypeError` once the leaf matches and the root is truthy
(conjunct 6), and a truthy non-iterable `path` likewise throws at
`for...of` (the counterexample). -/
theorem verifyProofDyn_total_on_wellformed_paths :
    ∀ (h : String → String) (data : String) (proof : JVal) (root : JVal),
      (jTruthy proof = false → verifyProofDyn h data proof root = .ok false)
      ∧ (∀ pathV, jTruthy proof = true → jGetField proof "path" = .ok pathV →
          jTruthy pathV = false → verifyProofDyn h data proof root = .ok false)
      ∧ (∀ pathV rootV, jTruthy proof = true →
          jGetField proof "path" = .ok pathV → jTruthy pathV = true →
          jGetField proof "root" = .ok rootV → jTruthy rootV = false →
          verifyProofDyn h data proof root = .ok false)
      ∧ (∀ pathV rootV leafV, jTruthy proof = true →
          jGetField proof "path" = .ok pathV → jTruthy pathV = true →
          jGetField proof "root" = .ok rootV → jTruthy rootV = true →
          jGetField proof "leaf" = .ok leafV → jEqStr leafV (h data) = false →
          verifyProofDyn h data proof root = .ok false)
      ∧ (pathSafe proof = true →
          ∃ b, verifyProofDyn h data proof root = .ok b)
      ∧ (∀ l rootV leafV, jTruthy proof = true →
          jGetField proof "path" = .ok (.jarr l) →
          jGetField proof "root" = .ok rootV → jTruthy rootV = true →
          jGetField proof "leaf" = .ok leafV → jEqStr leafV (h data) = true →
          (∃ v ∈ l, jNullish v = true) →
          verifyProofDyn h data proof root = .error ()) := by
  intro h data proof root
  refine ⟨?_, ?_, ?_, ?_, ?_, ?_⟩
  · intro hfalsy
    unfold verifyProofDyn
    rw [hfalsy]
    rfl
  · intro pathV ht hgp hpf
    unfold verifyProofDyn
    rw [ht]
    simp only [Bool.not_true, Bool.false_eq_true, if_false]
    rw [hgp]
    dsimp only
    rw [hpf]
    rfl
  · intro pathV rootV ht hgp hpt hgr hrf
    unfold verifyProofDyn
    rw [ht]
    simp only [Bool.not_true, Bool.false_eq_true, if_false]
    rw [hgp]
    dsimp only
    rw [hpt]
    simp only [Bool.not_true, Bool.false_eq_true, if_false]
    rw [hgr]
    dsimp only
    rw [hrf]
    rfl
  · intro pathV rootV leafV ht hgp hpt hgr hrt hgl hlf
    unfold verifyProofDyn
    rw [ht]
    simp only [Bool.not_true, Bool.false_eq_true, if_false]
    rw [hgp]
    dsimp only
    rw [hpt]
    simp only [Bool.not_true, Bool.false_eq_true, if_false]
    rw [hgr]
    dsimp only
    rw [hrt]
    simp only [Bool.not_true, Bool.false_eq_true, if_false]
    rw [hgl]
    dsimp only
    rw [hlf]
    rfl
  · intro hsafe
    cases proof with
    | undef => exact ⟨false, rfl⟩
    | jnull => exact ⟨false, rfl⟩
    | jbool b => cases b <;> exact ⟨false, rfl⟩
    | jnum n =>
        by_cases hz : (n == 0) = true
        · have : n = 0 := by simpa using hz
          subst this
          exact ⟨false, rfl⟩
        · have hn : (n != 0) = true := by simp_all
          refine ⟨false, ?_⟩
          show verifyProofDyn h data (.jnum n) root = .ok false
          unfold verifyProofDyn
          rw [show jTruthy (JVal.jnum n) = true from hn]
          rfl
    | jstr sv =>
        by_cases hz : sv = ""
        · subst hz
          exact ⟨false, rfl⟩
        · refine ⟨false, ?_⟩
          show verifyProofDyn h data (.jstr sv) root = .ok false
          unfold verifyProofDyn
          rw [show jTruthy (JVal.jstr sv) = true by simp [jTruthy, hz]]
          rfl
    | jarr l => exact ⟨false, rfl⟩
    | jobj fields =>
        have heq : verifyProofDyn h data (.jobj fields) root =
            (if !jTruthy (((fields.find? (fun p => p.1 == "path")).map
                Prod.snd).getD .undef) then .ok false
             else if !jTruthy (((fields.find? (fun p => p.1 == "root")).map
                Prod.snd).getD .undef) then .ok false
             else if !jEqStr (((fields.find? (fun p => p.1 == "leaf")).map
                Prod.snd).getD .undef) (h data) then .ok false
             else
               match jIterate (((fields.find? (fun p => p.1 == "path")).map
                  Prod.snd).getD .undef) with
               | .error e => .error e
               | .ok siblings =>
                   match foldPathDyn h siblings (h data) with
                   | .error e => .error e
                   | .ok currentHash =>
                       .ok (jEqStr
                         (if jTruthy root then root
                          else ((fields.find? (fun p => p.1 == "root")).map
                            Prod.snd).getD .undef)
                         currentHash)) := rfl
        have hsafe2 :
            (match ((fields.find? (fun p => p.1 == "path")).map
                Prod.snd).getD JVal.undef with
             | .jarr l => l.all (fun v => !(jNullish v))
             | .jstr _ => true
             | v => !(jTruthy v)) = true := hsafe
        rw [heq]
        clear hsafe heq
        revert hsafe2
        generalize (((fields.find? (fun p => p.1 == "path")).map
          Prod.snd).getD JVal.undef) = pathV
        intro hsafe2
        by_cases hrt : jTruthy (((fields.find? (fun p => p.1 == "root")).map
            Prod.snd).getD .undef) = true
        rotate_left
        · cases hpv : jTruthy pathV with
          | false => exact ⟨false, by simp [hpv]⟩
          | true => exact ⟨false, by simp [hpv, hrt]⟩
        by_cases hlv : jEqStr (((fields.find? (fun p => p.1 == "leaf")).map
            Prod.snd).getD .undef) (h data) = true
        rotate_left
        · cases hpv : jTruthy pathV with
          | false => exact ⟨false, by simp [hpv]⟩
          | true => exact ⟨false, by simp [hpv, hrt, hlv]⟩
        · cases pathV with
          | undef => exact ⟨false, by simp [jTruthy]⟩
          | jnull => exact ⟨false, by simp [jTruthy]⟩
          | jbool b =>
              cases b with
              | false => exact ⟨false, by simp [jTruthy]⟩
              | true =>
                  have hcontr : (!jTruthy (JVal.jbool true)) = true := hsafe2
                  simp [jTruthy] at hcontr
          | jnum n =>
              by_cases hz : n = 0
              · subst hz
                exact ⟨false, by simp [jTruthy]⟩
              · have hcontr : (!jTruthy (JVal.jnum n)) = true := hsafe2
                simp [jTruthy, hz] at hcontr
          | jobj f2 =>
              have hcontr : (!jTruthy (JVal.jobj f2)) = true := hsafe2
              simp [jTruthy] at hcontr
          | jarr l =>
              have hall : l.all (fun v => !(jNullish v)) = true := hsafe2
              have hnn : ∀ v ∈ l, jNullish v = false := by
                intro v hv
                have := List.all_eq_true.mp hall v hv
                simpa using this
              obtain ⟨r, hr⟩ := foldPathDyn_ok h l (h data) hnn
              refine ⟨jEqStr (if jTruthy root then root
                else ((fields.find? (fun p => p.1 == "root")).map
                  Prod.snd).getD .undef) r, ?_⟩
              rw [show jTruthy (JVal.jarr l) = true from rfl]
              simp only [Bool.not_true, Bool.false_eq_true, if_false, hrt, hlv]
              rw [show jIterate (JVal.jarr l) = .ok l from rfl]
              dsimp only
              rw [hr]
          | jstr sp =>
              by_cases hz : sp = ""
              · subst hz
                exact ⟨false, by simp [jTruthy]⟩
              · have hnn : ∀ v ∈ sp.toList.map
                    (fun c => JVal.jstr (String.singleton c)), jNullish v = false := by
                  intro v hv
                  obtain ⟨c, -, hc⟩ := List.mem_map.mp hv
                  rw [← hc]
                  rfl
                obtain ⟨r, hr⟩ :=
                  foldPathDyn_ok h (sp.toList.map (fun c => .jstr (String.singleton c)))
                    (h data) hnn
                refine ⟨jEqStr (if jTruthy root then root
                  else ((fields.find? (fun p => p.1 == "root")).map
                    Prod.snd).getD .undef) r, ?_⟩
                rw [show jTruthy (JVal.jstr sp) = true by simp [jTruthy, hz]]
                simp only [Bool.not_true, Bool.false_eq_true, if_false, hrt, hlv]
                rw [show jIterate (JVal.jstr sp) =
                  .ok (sp.toList.map (fun c => .jstr (String.singleton c))) from rfl]
                dsimp only
                rw [hr]
  · intro l rootV leafV ht hgp hgr hrt hgl hleq hnul
    unfold verifyProofDyn
    rw [ht]
    simp only [Bool.not_true, Bool.false_eq_true, if_false]
    rw [hgp]
    dsimp only
    rw [show jTruthy (JVal.jarr l) = true from rfl]
    simp only [Bool.not_true, Bool.false_eq_true, if_false]
    rw [hgr]
    dsimp only
    rw [hrt]
    simp only [Bool.not_true, Bool.false_eq_true, if_false]
    rw [hgl]
    dsimp only
    rw [hleq]
    simp only [Bool.not_true, Bool.false_eq_true, if_false]
    rw [show jIterate (JVal.jarr l) = .ok l from rfl]
    dsimp only
    rw [foldPathDyn_error h l (h data) hnul]

/-- C9 counterexample: a proof object whose `leaf` matches, whose `root`
is truthy, and whose `path` is the (truthy, non-iterable) number `1`
makes `verifyProof` throw a `TypeError` at the `for...of` loop instead of
returning `false` — refuting "returns a boolean ... and never throws". -/
theorem verifyProofDyn_throws_on_noniterable_path :
    verifyProofDyn hFix "a"
      (.jobj [("leaf", .jstr (hFix "a")), ("path", .jnum 1), ("root", .jstr "r")])
      .jnull = .error () := rfl

/-- C9 amended-claim witness: all six conjuncts applied concretely — a
falsy proof, a falsy path (the number 0), a truthy non-iterable path with
a falsy (absent) root, a matching guard chain with a mismatching (absent)
leaf, a well-formed empty-array path, and an array path holding a `null`
element (a thrown `TypeError`). -/
theorem verifyProofDyn_total_witness :
    verifyProofDyn hFix "x" .jnull .jnull = .ok false
    ∧ verifyProofDyn hFix "x" (.jobj [("path", .jnum 0)]) .jnull = .ok false
    ∧ verifyProofDyn hFix "x" (.jobj [("path", .jnum 5)]) .jnull = .ok false
    ∧ verifyProofDyn hFix "x"
        (.jobj [("path", .jnum 5), ("root", .jstr "r")]) .jnull = .ok false
    ∧ (∃ b, verifyProofDyn hFix "x" (.jobj [("path", .jarr [])]) .jnull = .ok b)
    ∧ verifyProofDyn hFix "a"
        (.jobj [("leaf", .jstr (hFix "a")), ("path", .jarr [.jnull]),
                ("root", .jstr "r")]) .jnull = .error () :=
  ⟨(verifyProofDyn_total_on_wellformed_paths hFix "x" .jnull .jnull).1 rfl,
   (verifyProofDyn_total_on_wellformed_paths hFix "x"
      (.jobj [("path", .jnum 0)]) .jnull).2.1 (.jnum 0) rfl rfl rfl,
   (verifyProofDyn_total_on_wellformed_paths hFix "x"
      (.jobj [("path", .jnum 5)]) .jnull).2.2.1 (.jnum 5) .undef
      rfl rfl rfl rfl rfl,
   (verifyProofDyn_total_on_wellformed_paths hFix "x"
      (.jobj [("path", .jnum 5), ("root", .jstr "r")]) .jnull).2.2.2.1
      (.jnum 5) (.jstr "r") .undef rfl rfl rfl rfl rfl rfl rfl,
   (verifyProofDyn_total_on_wellformed_paths hFix "x"
      (.jobj [("path", .jarr [])]) .jnull).2.2.2.2.1 rfl,
   (verifyProofDyn_total_on_wellformed_paths hFix "a"
      (.jobj [("leaf", .jstr (hFix "a")), ("path", .jarr [.jnull]),
              ("root", .jstr "r")]) .jnull).2.2.2.2.2 [.jnull] (.jstr "r")
      (.jstr (hFix "a")) rfl rfl rfl rfl rfl (by simp [jEqStr])
      ⟨.jnull, by simp, rfl⟩⟩

/-! ### Merkle proof round-trip (C6) -/

theorem buildLevel_getD (h : String → String) :
    ∀ (l : List String) (j : Nat), 2 * j < l.length →
      (buildLevel h l).getD j "" =
        if 2 * j + 1 < l.length then
          h (l.getD (2 * j) "" ++ l.getD (2 * j + 1) "")
        else h (l.getD (2 * j) "" ++ l.getD (2 * j) "")
  | [], j, hj => absurd hj (by simp)
  | [a], j, hj => by
      have hj0 : j = 0 := by simp at hj; omega
      subst hj0
      simp [buildLevel]
  | a :: b :: rest, 0, hj => by
      have hcond : 2 * 0 + 1 < (a :: b :: rest).length := by simp
      rw [if_pos hcond]
      rfl
  | a :: b :: rest, j + 1, hj => by
      have hj2 : 2 * j < rest.length := by simp at hj; omega
      have ih := buildLevel_getD h rest j hj2
      show (buildLevel h rest).getD j "" = _
      rw [ih]
      have e1 : 2 * (j + 1) = 2 * j + 1 + 1 := by omega
      rw [e1]
      simp only [List.getD_cons_succ, List.length_cons]
      have hiff : (2 * j + 1 + 1 + 1 < rest.length + 1 + 1) ↔
          (2 * j + 1 < rest.length) := by omega
      rw [if_congr hiff rfl rfl]

theorem lastLevel_cons_cons (cur next : List String) (t : List (List String)) :
    lastLevel (cur :: next :: t) = lastLevel (next :: t) := by
  simp [lastLevel, List.getLastD_cons]

theorem buildLevel_mem (h : String → String) :
    ∀ (l : List String) (x : String), x ∈ buildLevel h l → ∃ y, x = h y
  | [], x, hx => absurd hx (by simp [buildLevel])
  | [a], x, hx => by
      simp [buildLevel] at hx
      exact ⟨a ++ a, hx⟩
  | a :: b :: rest, x, hx => by
      simp only [buildLevel, List.mem_cons] at hx
      rcases hx with hx | hx
      · exact ⟨a ++ b, hx⟩
      · exact buildLevel_mem h rest x hx

theorem lastLevel_head_mem_range (h : String → String) (cur : List String)
    (hne : cur ≠ []) (hmem : ∀ x ∈ cur, ∃ y, x = h y) :
    ∃ y, (lastLevel (cur :: growLevels h cur)).getD 0 "" = h y := by
  rw [growLevels_eq]
  by_cases hlen : cur.length > 1
  · rw [if_pos hlen]
    rw [lastLevel_cons_cons]
    have hbne : buildLevel h cur ≠ [] := by
      intro hc
      have := buildLevel_length h cur
      rw [hc] at this
      simp at this
      omega
    exact lastLevel_head_mem_range h (buildLevel h cur) hbne
      (fun x hx => buildLevel_mem h cur x hx)
  · rw [if_neg hlen]
    match cur, hne with
    | a :: t, _ =>
        have : (lastLevel [a :: t]).getD 0 "" = a := by
          simp [lastLevel, List.getLastD_cons]
        rw [this]
        exact hmem a (by simp)
termination_by cur.length
decreasing_by
  rw [buildLevel_length]
  omega

theorem findIndex_spec :
    ∀ (l : List String) (x : String), x ∈ l →
      ∃ i, findIndex (fun y => y == x) l = some i ∧ i < l.length ∧
        l.getD i "" = x
  | [], x, hx => absurd hx (by simp)
  | a :: t, x, hx => by
      by_cases hax : (a == x) = true
      · refine ⟨0, ?_, by simp, by simpa using hax⟩
        simp [findIndex, hax]
      · have hxt : x ∈ t := by
          rcases List.mem_cons.mp hx with hh | hh
          · exact absurd (by simp [hh]) hax
          · exact hh
        obtain ⟨i, h1, h2, h3⟩ := findIndex_spec t x hxt
        refine ⟨i + 1, ?_, by simp; omega, by simpa using h3⟩
        simp [findIndex, hax, h1]

theorem foldPath_levels (h : String → String) (cur : List String) (idx : Nat)
    (hidx : idx < cur.length) :
    foldPath h (getProofPath (cur :: growLevels h cur) idx) (cur.getD idx "") =
      (lastLevel (cur :: growLevels h cur)).getD 0 "" := by
  rw [growLevels_eq]
  by_cases hlen : cur.length > 1
  · rw [if_pos hlen]
    have hrec := foldPath_levels h (buildLevel h cur) (idx / 2)
      (by rw [buildLevel_length]; omega)
    simp only [getProofPath]
    rw [lastLevel_cons_cons]
    by_cases hpar : idx % 2 = 0
    · simp only [if_pos hpar]
      by_cases hsib : idx + 1 < cur.length
      · rw [if_pos hsib]
        simp only [foldPath]
        rw [if_neg (by decide)]
        have hcomb : h (cur.getD idx "" ++ cur.getD (idx + 1) "") =
            (buildLevel h cur).getD (idx / 2) "" := by
          rw [buildLevel_getD h cur (idx / 2) (by omega)]
          have e1 : 2 * (idx / 2) = idx := by omega
          rw [e1, if_pos hsib]
        rw [hcomb]
        exact hrec
      · rw [if_neg hsib]
        simp only [foldPath]
        rw [if_neg (by decide)]
        have hcomb : h (cur.getD idx "" ++ cur.getD idx "") =
            (buildLevel h cur).getD (idx / 2) "" := by
          rw [buildLevel_getD h cur (idx / 2) (by omega)]
          have e1 : 2 * (idx / 2) = idx := by omega
          rw [e1, if_neg hsib]
        rw [hcomb]
        exact hrec
    · simp only [if_neg hpar]
      have hsib : idx - 1 < cur.length := by omega
      rw [if_pos hsib]
      simp only [foldPath]
      rw [if_pos (by decide)]
      have hcomb : h (cur.getD (idx - 1) "" ++ cur.getD idx "") =
          (buildLevel h cur).getD (idx / 2) "" := by
        rw [buildLevel_getD h cur (idx / 2) (by omega)]
        have e2 : 2 * (idx / 2) + 1 = idx := by omega
        have e1 : 2 * (idx / 2) = idx - 1 := by omega
        rw [e2, e1, if_pos hidx]
      rw [hcomb]
      exact hrec
  · rw [if_neg hlen]
    have hidx0 : idx = 0 := by omega
    subst hidx0
    match cur, hidx with
    | a :: t, _ =>
        show a = (lastLevel [a :: t]).getD 0 ""
        simp [lastLevel, List.getLastD_cons]
termination_by cur.length
decreasing_by
  rw [buildLevel_length]
  omega

/-- C6: for every non-empty record list and every record `r` in it,
`verifyProof(r, tree.getProof(r), tree.getRoot())` succeeds and returns
`true` — for every hash function that never produces the empty string
(the real SHA-256 hex digest never is), and in particular for every list
size including those where some level has odd cardinality and the last
node is combined with itself during both build and proof generation. -/
theorem merkle_proof_roundtrip :
    ∀ (h : String → String), (∀ z, h z ≠ "") →
      ∀ (data : List String) (r : String), data ≠ [] → r ∈ data →
        ∃ (p : Proof) (rt : String),
          getProof h (mkMerkleTree h data) r = .ok p
          ∧ getRoot (mkMerkleTree h data) = .ok rt
          ∧ verifyProof h r p (some rt) = true := by
  intro h hne data r hdata hr
  have htree : mkMerkleTree h data = buildTree h data := by
    unfold mkMerkleTree
    rw [if_pos (by cases data with
      | nil => exact absurd rfl hdata
      | cons a t => simp)]
  have hbt : buildTree h data =
      { leaves := data.map h,
        root := some ((lastLevel (data.map h :: growLevels h (data.map h))).getD 0 ""),
        levels := data.map h :: growLevels h (data.map h) } := by
    unfold buildTree
    rw [if_neg hdata]
  have hlne : data.map h ≠ [] := by
    cases data with
    | nil => exact absurd rfl hdata
    | cons a t => simp
  have hmem : ∀ x ∈ data.map h, ∃ y, x = h y := by
    intro x hx
    obtain ⟨y, -, hy⟩ := List.mem_map.mp hx
    exact ⟨y, hy.symm⟩
  obtain ⟨y0, hy0⟩ := lastLevel_head_mem_range h (data.map h) hlne hmem
  have hroot_ne :
      (lastLevel (data.map h :: growLevels h (data.map h))).getD 0 "" ≠ "" := by
    rw [hy0]
    exact hne y0
  obtain ⟨i, hfind, hilt, hgetd⟩ :=
    findIndex_spec (data.map h) (h r) (List.mem_map_of_mem h hr)
  refine ⟨{ leaf := h r,
            path := getProofPath (data.map h :: growLevels h (data.map h)) i,
            root := some ((lastLevel (data.map h :: growLevels h (data.map h))).getD 0 "") },
          (lastLevel (data.map h :: growLevels h (data.map h))).getD 0 "",
          ?_, ?_, ?_⟩
  · rw [htree, hbt]
    unfold getProof
    dsimp only
    rw [if_neg (by simpa using hlne), hfind]
  · rw [htree, hbt]
    unfold getRoot
    dsimp only
    rw [if_neg hroot_ne]
  · unfold verifyProof
    dsimp only
    rw [if_neg hroot_ne]
    rw [if_neg hroot_ne]
    rw [if_neg (by simp)]
    have hfold := foldPath_levels h (data.map h) i hilt
    rw [hgetd] at hfold
    rw [hfold]
    simp

/-- C6 witness: the size-5 list (odd cardinality at two levels, so the
self-duplication rule fires during both build and proof generation) with
the record `"c"`, under the concrete never-empty hash `hFix`. -/
theorem merkle_proof_roundtrip_witness :
    ∃ (p : Proof) (rt : String),
      getProof hFix (mkMerkleTree hFix ["a", "b", "c", "d", "e"]) "c" = .ok p
      ∧ getRoot (mkMerkleTree hFix ["a", "b", "c", "d", "e"]) = .ok rt
      ∧ verifyProof hFix "c" p (some rt) = true :=
  merkle_proof_roundtrip hFix hFix_ne_empty ["a", "b", "c", "d", "e"] "c"
    (by simp) (by simp)

end HealthChain
